import Mathlib

/-!
# Verification of the IRV tally engine (`backend.py`, `calculate_irv_winner`)

Shallow embedding of the Instant Runoff Voting tally of the voting backend.
Candidates are opaque identifiers, modelled as `Nat`; a ballot is a ranked
list of candidate identifiers (most preferred first); the full input is a
list of ballots, one per vote, in database order.

The source loop (`calculate_irv_winner`) keeps per-round first-preference
counts in an insertion-ordered dictionary (`defaultdict(int)`), so both the
set of counted candidates and their iteration order are determined by the
order in which candidates first appear at the head of a ballot.  The
embedding makes that order explicit via `prefKeys`.
-/

namespace IRV

/-- Effect of one loop iteration of the first-preference count on the
dictionary's key list: a non-empty ballot's head is appended if it is a new
key (`first_pref_counts[ballot[0]] += 1` inserts the key on first use);
an empty ballot changes nothing (`if ballot:`). -/
def insertKey (ks : List Nat) (b : List Nat) : List Nat :=
  match b with
  | [] => ks
  | c :: _ => if c ∈ ks then ks else ks ++ [c]

/-- Insertion-ordered list of the dictionary keys of `first_pref_counts`:
candidates in order of first appearance as the head of a (non-empty) ballot.
Mirrors `first_pref_counts[ballot[0]] += 1` over `for ballot in ballots`. -/
def prefKeys (ballots : List (List Nat)) : List Nat :=
  ballots.foldl insertKey []

/-- Value of `first_pref_counts[c]`: the number of non-empty working ballots
whose current head is `c`. -/
def countTop (ballots : List (List Nat)) (c : Nat) : Nat :=
  (ballots.filterMap List.head?).count c

/-- The majority test `count > total_votes / 2` of the source, with Python's
real-valued `/` embedded as division in `ℚ`. -/
def majorityB (count total : Nat) : Bool :=
  decide ((total : ℚ) / 2 < (count : ℚ))

/-- The `for candidate, count in first_pref_counts.items(): if count >
total_votes / 2: return candidate` scan: the first counted candidate (in
dictionary insertion order) whose count beats half of `len(ballots)`. -/
def findMajorityWinner (ballots : List (List Nat)) : Option Nat :=
  (prefKeys ballots).find? (fun c => majorityB (countTop ballots c) ballots.length)

/-- The source's `min(first_pref_counts.values()) if first_pref_counts else 0`. -/
def minVotes (ballots : List (List Nat)) : Nat :=
  match (prefKeys ballots).map (countTop ballots) with
  | [] => 0
  | v :: vs => vs.foldl min v

/-- The source's `candidates_to_eliminate`: counted candidates whose count
equals the round minimum. -/
def toEliminate (ballots : List (List Nat)) : List Nat :=
  (prefKeys ballots).filter (fun c => countTop ballots c == minVotes ballots)

/-- One elimination: filter the eliminated candidates out of every ballot
(preserving relative order), then drop ballots that became empty.  Mirrors
`ballots = [[c for c in ballot if c != candidate] for ballot in ballots]`
iterated over `candidates_to_eliminate`, followed by
`ballots = [b for b in ballots if b]`. -/
def nextBallots (ballots : List (List Nat)) : List (List Nat) :=
  (ballots.map (fun b => b.filter (fun c => decide (c ∉ toEliminate ballots)))).filter
    (fun b => !b.isEmpty)

/-- The tail of the elimination branch: after filtering, `if not ballots:
return None`, otherwise continue with the reduced ballots. -/
def eliminationStep (ballots : List (List Nat)) : Option Nat ⊕ List (List Nat) :=
  if nextBallots ballots = [] then Sum.inl none else Sum.inr (nextBallots ballots)

/-- One iteration of the `while True` loop: majority check, then the
all-tied termination check (`len(candidates_to_eliminate) ==
len(first_pref_counts)`, returning `list(first_pref_counts.keys())[0]` if
counts are non-empty and `None` otherwise), then elimination.
`Sum.inl r` means the loop returns `r`; `Sum.inr bs` means it continues
with working ballots `bs`. -/
def irvRound (ballots : List (List Nat)) : Option Nat ⊕ List (List Nat) :=
  match findMajorityWinner ballots with
  | some w => Sum.inl (some w)
  | none =>
    if (toEliminate ballots).length = (prefKeys ballots).length then
      Sum.inl (prefKeys ballots).head?
    else
      eliminationStep ballots

/-- The `while True` loop, run for at most `fuel` rounds: `some r` when the
loop returned `r` within `fuel` rounds, `none` when the fuel ran out (which,
by `irvWinnerAux_numCands_terminates`, never happens at the fuel used by
`irv_winner`). -/
def irvWinnerAux : Nat → List (List Nat) → Option (Option Nat)
  | 0, _ => none
  | fuel + 1, ballots =>
    match irvRound ballots with
    | Sum.inl r => some r
    | Sum.inr ballots' => irvWinnerAux fuel ballots'

/-- Number of distinct candidate identifiers appearing anywhere on the
ballots; each elimination round that continues removes at least one of them,
so this bounds the number of rounds. -/
def numCands (ballots : List (List Nat)) : Nat :=
  ballots.flatten.toFinset.card

/-- The pure core of `calculate_irv_winner`: the `if not votes: return None`
guard followed by the `while True` elimination loop, run with enough fuel
for the loop to finish. -/
def irv_winner (ballots : List (List Nat)) : Option Nat :=
  if ballots = [] then none
  else (irvWinnerAux (numCands ballots + 1) ballots).getD none

set_option linter.unusedVariables false in
/-- Full `calculate_irv_winner` interface: the source also queries the
candidate registry of the election (`candidate_ids = [c.id for c in
candidates]`) but the tally never reads it; the parameter is kept to mirror
the source's signature. -/
def calculate_irv_winner (candidate_ids : List Nat) (ballots : List (List Nat)) :
    Option Nat :=
  irv_winner ballots

/-- First-preference tally of `get_election_results`: each vote contributes
one count to its rank-1 candidate (the head of its sorted preference list);
votes with no preferences contribute nothing.  Returned as an association
list in dictionary insertion order (the id-to-name rendering of the source
is elided). -/
def first_preference_counts (ballots : List (List Nat)) : List (Nat × Nat) :=
  (prefKeys ballots).map (fun c => (c, countTop ballots c))

/-! ## Computable shadow of the majority test

Python's `/` is real-valued; the faithful embedding `majorityB` compares in
`ℚ`, whose arithmetic the kernel does not reduce.  For concrete evaluation
we use an equivalent integer comparison, proved equal below. -/

/-- Integer form of the majority test: `total < 2 * count`. -/
def majorityC (count total : Nat) : Bool :=
  decide (total < 2 * count)

/-- Shadow of `findMajorityWinner` using the integer majority test. -/
def findMajorityWinnerC (ballots : List (List Nat)) : Option Nat :=
  (prefKeys ballots).find? (fun c => majorityC (countTop ballots c) ballots.length)

/-- Shadow of `irvRound` using the integer majority test. -/
def irvRoundC (ballots : List (List Nat)) : Option Nat ⊕ List (List Nat) :=
  match findMajorityWinnerC ballots with
  | some w => Sum.inl (some w)
  | none =>
    if (toEliminate ballots).length = (prefKeys ballots).length then
      Sum.inl (prefKeys ballots).head?
    else
      eliminationStep ballots

/-- Shadow of `irvWinnerAux` using the integer majority test. -/
def irvWinnerAuxC : Nat → List (List Nat) → Option (Option Nat)
  | 0, _ => none
  | fuel + 1, ballots =>
    match irvRoundC ballots with
    | Sum.inl r => some r
    | Sum.inr ballots' => irvWinnerAuxC fuel ballots'

/-- Shadow of `irv_winner` using the integer majority test. -/
def irv_winnerC (ballots : List (List Nat)) : Option Nat :=
  if ballots = [] then none
  else (irvWinnerAuxC (numCands ballots + 1) ballots).getD none

theorem majorityB_eq_majorityC (count total : Nat) :
    majorityB count total = majorityC count total := by
  unfold majorityB majorityC
  rw [decide_eq_decide, div_lt_iff₀ (by norm_num : (0 : ℚ) < 2)]
  rw [mul_comm]
  constructor
  · intro h
    exact_mod_cast h
  · intro h
    exact_mod_cast h

theorem findMajorityWinner_eq_C (ballots : List (List Nat)) :
    findMajorityWinner ballots = findMajorityWinnerC ballots := by
  unfold findMajorityWinner findMajorityWinnerC
  congr 1
  funext c
  exact majorityB_eq_majorityC _ _

theorem irvRound_eq_C (ballots : List (List Nat)) :
    irvRound ballots = irvRoundC ballots := by
  unfold irvRound irvRoundC
  rw [findMajorityWinner_eq_C]

theorem irvWinnerAux_eq_C :
    ∀ fuel ballots, irvWinnerAux fuel ballots = irvWinnerAuxC fuel ballots
  | 0, _ => rfl
  | fuel + 1, ballots => by
    unfold irvWinnerAux irvWinnerAuxC
    rw [irvRound_eq_C]
    cases irvRoundC ballots with
    | inl r => rfl
    | inr ballots' => exact irvWinnerAux_eq_C fuel ballots'

theorem irv_winner_eq_C (ballots : List (List Nat)) :
    irv_winner ballots = irv_winnerC ballots := by
  unfold irv_winner irv_winnerC
  rw [irvWinnerAux_eq_C]

/-! ## Structural lemmas about the per-round quantities -/

theorem mem_insertKey (ks : List Nat) (b : List Nat) (x : Nat) :
    x ∈ insertKey ks b ↔ x ∈ ks ∨ b.head? = some x := by
  cases b with
  | nil => simp [insertKey]
  | cons c t =>
    simp only [insertKey, List.head?_cons, Option.some.injEq]
    by_cases hc : c ∈ ks
    · simp only [if_pos hc]
      constructor
      · intro h; exact Or.inl h
      · rintro (h | rfl)
        · exact h
        · exact hc
    · simp only [if_neg hc, List.mem_append, List.mem_singleton]
      constructor
      · rintro (h | rfl)
        · exact Or.inl h
        · exact Or.inr rfl
      · rintro (h | rfl)
        · exact Or.inl h
        · exact Or.inr rfl

theorem mem_foldl_insertKey (bs : List (List Nat)) :
    ∀ (ks : List Nat) (x : Nat),
      x ∈ bs.foldl insertKey ks ↔ x ∈ ks ∨ x ∈ bs.filterMap List.head? := by
  induction bs with
  | nil => intro ks x; simp
  | cons b bs ih =>
    intro ks x
    rw [List.foldl_cons, ih, mem_insertKey, List.filterMap_cons]
    cases hb : b.head? with
    | none => simp [hb]
    | some c =>
      simp only [hb, Option.some.injEq, List.mem_cons]
      tauto

/-- A candidate is a key of the round's count dictionary exactly when it is
the head of some non-empty working ballot. -/
theorem mem_prefKeys (ballots : List (List Nat)) (x : Nat) :
    x ∈ prefKeys ballots ↔ x ∈ ballots.filterMap List.head? := by
  rw [prefKeys, mem_foldl_insertKey]
  simp

/-- A candidate is counted this round exactly when its count is positive. -/
theorem mem_prefKeys_iff_pos (ballots : List (List Nat)) (x : Nat) :
    x ∈ prefKeys ballots ↔ 0 < countTop ballots x := by
  rw [mem_prefKeys, countTop, List.count_pos_iff]

theorem prefKeys_ne_nil_of_mem {ballots : List (List Nat)} {b : List Nat}
    (hb : b ∈ ballots) (hne : b ≠ []) : prefKeys ballots ≠ [] := by
  cases b with
  | nil => exact absurd rfl hne
  | cons c t =>
    have : c ∈ prefKeys ballots := by
      rw [mem_prefKeys, List.mem_filterMap]
      exact ⟨c :: t, hb, rfl⟩
    intro h
    rw [h] at this
    exact absurd this (List.not_mem_nil c)

theorem mem_flatten_of_mem_prefKeys {ballots : List (List Nat)} {c : Nat}
    (hc : c ∈ prefKeys ballots) : c ∈ ballots.flatten := by
  rw [mem_prefKeys, List.mem_filterMap] at hc
  obtain ⟨b, hb, hhead⟩ := hc
  exact List.mem_flatten.mpr ⟨b, hb, List.mem_of_mem_head? hhead⟩

theorem foldl_min_le_init (vs : List Nat) : ∀ v : Nat, vs.foldl min v ≤ v := by
  induction vs with
  | nil => intro v; exact le_refl v
  | cons w ws ih =>
    intro v
    calc ws.foldl min (min v w) ≤ min v w := ih (min v w)
      _ ≤ v := min_le_left v w

theorem foldl_min_le_mem (vs : List Nat) :
    ∀ (v : Nat), ∀ x ∈ vs, vs.foldl min v ≤ x := by
  induction vs with
  | nil => intro v x hx; exact absurd hx (List.not_mem_nil x)
  | cons w ws ih =>
    intro v x hx
    rcases List.mem_cons.mp hx with rfl | hx
    · calc ws.foldl min (min v x) ≤ min v x := foldl_min_le_init ws (min v x)
        _ ≤ x := min_le_right v x
    · exact ih (min v w) x hx

theorem foldl_min_mem (vs : List Nat) :
    ∀ v : Nat, vs.foldl min v = v ∨ vs.foldl min v ∈ vs := by
  induction vs with
  | nil => intro v; exact Or.inl rfl
  | cons w ws ih =>
    intro v
    rcases ih (min v w) with h | h
    · rw [List.foldl_cons, h]
      rcases min_cases v w with ⟨h1, _⟩ | ⟨h1, _⟩
      · exact Or.inl h1
      · exact Or.inr (by rw [h1]; exact List.mem_cons_self w ws)
    · exact Or.inr (List.mem_cons_of_mem w h)

/-- The round minimum is a lower bound on every counted candidate's count. -/
theorem minVotes_le_countTop {ballots : List (List Nat)} {c : Nat}
    (hc : c ∈ prefKeys ballots) :
    minVotes ballots ≤ countTop ballots c := by
  rw [minVotes]
  cases hk : prefKeys ballots with
  | nil => rw [hk] at hc; exact absurd hc (List.not_mem_nil c)
  | cons k ks =>
    rw [hk] at hc
    simp only [List.map_cons]
    rcases List.mem_cons.mp hc with rfl | hc
    · exact foldl_min_le_init _ _
    · exact foldl_min_le_mem _ _ _ (List.mem_map_of_mem (countTop ballots) hc)

/-- The round minimum is attained by some counted candidate. -/
theorem minVotes_attained {ballots : List (List Nat)}
    (hk : prefKeys ballots ≠ []) :
    ∃ c ∈ prefKeys ballots, countTop ballots c = minVotes ballots := by
  rw [minVotes]
  cases hke : prefKeys ballots with
  | nil => exact absurd hke hk
  | cons k ks =>
    simp only [List.map_cons]
    rcases foldl_min_mem (ks.map (countTop ballots)) (countTop ballots k) with h | h
    · exact ⟨k, List.mem_cons_self k ks, h.symm⟩
    · obtain ⟨c, hc, hval⟩ := List.mem_map.mp h
      exact ⟨c, List.mem_cons_of_mem k hc, hval⟩

/-- Membership in the eliminated set: counted this round with a count equal
to the round minimum. -/
theorem mem_toEliminate (ballots : List (List Nat)) (c : Nat) :
    c ∈ toEliminate ballots ↔
      c ∈ prefKeys ballots ∧ countTop ballots c = minVotes ballots := by
  rw [toEliminate, List.mem_filter]
  simp

/-! ## Elimination-round lemmas -/

theorem keys_ne_nil_of_not_all_tied {ballots : List (List Nat)}
    (h : (toEliminate ballots).length ≠ (prefKeys ballots).length) :
    prefKeys ballots ≠ [] := by
  intro hk
  apply h
  rw [toEliminate, hk]
  rfl

theorem exists_eliminated {ballots : List (List Nat)}
    (h : (toEliminate ballots).length ≠ (prefKeys ballots).length) :
    ∃ c, c ∈ toEliminate ballots := by
  obtain ⟨c, hc, hval⟩ := minVotes_attained (keys_ne_nil_of_not_all_tied h)
  exact ⟨c, (mem_toEliminate ballots c).mpr ⟨hc, hval⟩⟩

theorem exists_not_eliminated {ballots : List (List Nat)}
    (h : (toEliminate ballots).length ≠ (prefKeys ballots).length) :
    ∃ c ∈ prefKeys ballots, c ∉ toEliminate ballots := by
  by_contra hno
  push_neg at hno
  apply h
  have : toEliminate ballots = prefKeys ballots := by
    rw [toEliminate]
    apply List.filter_eq_self.mpr
    intro a ha
    have := (mem_toEliminate ballots a).mp (hno a ha)
    simp [this.2]
  rw [this]

theorem mem_nextBallots (ballots : List (List Nat)) (b : List Nat) :
    b ∈ nextBallots ballots ↔
      b ≠ [] ∧ ∃ b0 ∈ ballots,
        b = b0.filter (fun c => decide (c ∉ toEliminate ballots)) := by
  rw [nextBallots, List.mem_filter, List.mem_map]
  constructor
  · rintro ⟨⟨b0, hb0, rfl⟩, hne⟩
    refine ⟨by simpa using hne, b0, hb0, rfl⟩
  · rintro ⟨hne, b0, hb0, rfl⟩
    exact ⟨⟨b0, hb0, rfl⟩, by simpa using hne⟩

theorem mem_nextBallots_ne_nil {ballots : List (List Nat)} {b : List Nat}
    (h : b ∈ nextBallots ballots) : b ≠ [] :=
  ((mem_nextBallots ballots b).mp h).1

theorem mem_flatten_nextBallots {ballots : List (List Nat)} {x : Nat}
    (h : x ∈ (nextBallots ballots).flatten) :
    x ∈ ballots.flatten ∧ x ∉ toEliminate ballots := by
  obtain ⟨b, hb, hx⟩ := List.mem_flatten.mp h
  obtain ⟨-, b0, hb0, rfl⟩ := (mem_nextBallots ballots b).mp hb
  have hx' := List.mem_filter.mp hx
  refine ⟨List.mem_flatten.mpr ⟨b0, hb0, hx'.1⟩, ?_⟩
  simpa using hx'.2

/-- Whenever the eliminated set is a strict subset of the counted
candidates, some surviving candidate keeps a non-empty ballot, so the
filtered working ballot set is never empty. -/
theorem nextBallots_ne_nil {ballots : List (List Nat)}
    (h : (toEliminate ballots).length ≠ (prefKeys ballots).length) :
    nextBallots ballots ≠ [] := by
  obtain ⟨c, hc, hcel⟩ := exists_not_eliminated h
  obtain ⟨b0, hb0, hhead⟩ := List.mem_filterMap.mp ((mem_prefKeys ballots c).mp hc)
  have hcb0 : c ∈ b0 := List.mem_of_mem_head? hhead
  have hcf : c ∈ b0.filter (fun c => decide (c ∉ toEliminate ballots)) :=
    List.mem_filter.mpr ⟨hcb0, by simpa using hcel⟩
  have hne : b0.filter (fun c => decide (c ∉ toEliminate ballots)) ≠ [] := by
    intro hnil
    rw [hnil] at hcf
    exact absurd hcf (List.not_mem_nil c)
  have : b0.filter (fun c => decide (c ∉ toEliminate ballots)) ∈ nextBallots ballots :=
    (mem_nextBallots ballots _).mpr ⟨hne, b0, hb0, rfl⟩
  intro hnil
  rw [hnil] at this
  exact absurd this (List.not_mem_nil _)

/-- Each elimination round that continues strictly reduces the number of
distinct candidates appearing on the ballots. -/
theorem numCands_nextBallots_lt {ballots : List (List Nat)}
    (h : (toEliminate ballots).length ≠ (prefKeys ballots).length) :
    numCands (nextBallots ballots) < numCands ballots := by
  obtain ⟨c, hc⟩ := exists_eliminated h
  have hck : c ∈ prefKeys ballots := ((mem_toEliminate ballots c).mp hc).1
  have hcin : c ∈ ballots.flatten := mem_flatten_of_mem_prefKeys hck
  apply Finset.card_lt_card
  rw [Finset.ssubset_def]
  constructor
  · intro x hx
    rw [List.mem_toFinset] at hx ⊢
    exact (mem_flatten_nextBallots hx).1
  · intro hsub
    have := hsub (List.mem_toFinset.mpr hcin)
    rw [List.mem_toFinset] at this
    exact absurd hc (mem_flatten_nextBallots this).2

theorem irvRound_eq_inr {ballots : List (List Nat)}
    (h1 : findMajorityWinner ballots = none)
    (h2 : (toEliminate ballots).length ≠ (prefKeys ballots).length) :
    irvRound ballots = Sum.inr (nextBallots ballots) := by
  rw [irvRound, h1]
  simp only [if_neg h2]
  rw [eliminationStep, if_neg (nextBallots_ne_nil h2)]

theorem irvRound_inr_inv {ballots bs : List (List Nat)}
    (h : irvRound ballots = Sum.inr bs) :
    bs = nextBallots ballots ∧
      (toEliminate ballots).length ≠ (prefKeys ballots).length := by
  rw [irvRound] at h
  cases hf : findMajorityWinner ballots with
  | some w => rw [hf] at h; exact absurd h (by simp)
  | none =>
    rw [hf] at h
    by_cases htie : (toEliminate ballots).length = (prefKeys ballots).length
    · rw [if_pos htie] at h
      exact absurd h (by simp)
    · rw [if_neg htie, eliminationStep] at h
      by_cases hemp : nextBallots ballots = []
      · rw [if_pos hemp] at h
        exact absurd h (by simp)
      · rw [if_neg hemp] at h
        exact ⟨(Sum.inr.injEq _ _ ▸ h).symm, htie⟩

theorem irvWinnerAux_succ (fuel : Nat) (ballots : List (List Nat)) :
    irvWinnerAux (fuel + 1) ballots =
      match irvRound ballots with
      | Sum.inl r => some r
      | Sum.inr ballots' => irvWinnerAux fuel ballots' := rfl

/-- More fuel never changes a result the loop already reached. -/
theorem irvWinnerAux_mono :
    ∀ (fuel fuel' : Nat) (ballots : List (List Nat)) (r : Option Nat),
      irvWinnerAux fuel ballots = some r → fuel ≤ fuel' →
      irvWinnerAux fuel' ballots = some r := by
  intro fuel
  induction fuel with
  | zero => intro fuel' ballots r h _; exact absurd h (by simp [irvWinnerAux])
  | succ fuel ih =>
    intro fuel' ballots r h hle
    obtain ⟨f', rfl⟩ : ∃ f', fuel' = f' + 1 :=
      ⟨fuel' - 1, by omega⟩
    rw [irvWinnerAux_succ] at h ⊢
    cases hrd : irvRound ballots with
    | inl r0 => rw [hrd] at h; exact h
    | inr b' => rw [hrd] at h; exact ih f' b' r h (by omega)

/-! ## Termination and non-exhaustion of the loop -/

theorem irvWinnerAux_le_fuel :
    ∀ (n : Nat) (ballots : List (List Nat)), numCands ballots ≤ n →
      ∃ r, irvWinnerAux (numCands ballots + 1) ballots = some r := by
  intro n
  induction n with
  | zero =>
    intro ballots hn
    rw [irvWinnerAux_succ]
    cases hrd : irvRound ballots with
    | inl r => exact ⟨r, rfl⟩
    | inr b' =>
      obtain ⟨rfl, htie⟩ := irvRound_inr_inv hrd
      have hlt := numCands_nextBallots_lt htie
      omega
  | succ n ih =>
    intro ballots hn
    rw [irvWinnerAux_succ]
    cases hrd : irvRound ballots with
    | inl r => exact ⟨r, rfl⟩
    | inr b' =>
      obtain ⟨rfl, htie⟩ := irvRound_inr_inv hrd
      have hlt := numCands_nextBallots_lt htie
      obtain ⟨r, hr⟩ := ih (nextBallots ballots) (by omega)
      exact ⟨r, irvWinnerAux_mono _ _ _ _ hr (by omega)⟩

theorem irvWinnerAux_numCands_terminates (ballots : List (List Nat)) :
    ∃ r, irvWinnerAux (numCands ballots + 1) ballots = some r :=
  irvWinnerAux_le_fuel (numCands ballots) ballots (le_refl _)

theorem irvRound_inl_isSome {ballots : List (List Nat)} {r : Option Nat}
    (hk : prefKeys ballots ≠ []) (h : irvRound ballots = Sum.inl r) :
    ∃ c, r = some c := by
  rw [irvRound] at h
  cases hf : findMajorityWinner ballots with
  | some w =>
    rw [hf] at h
    exact ⟨w, (Sum.inl.inj h).symm⟩
  | none =>
    rw [hf] at h
    by_cases htie : (toEliminate ballots).length = (prefKeys ballots).length
    · rw [if_pos htie] at h
      cases hke : prefKeys ballots with
      | nil => exact absurd hke hk
      | cons k ks =>
        rw [hke] at h
        exact ⟨k, (Sum.inl.inj h).symm⟩
    · rw [if_neg htie, eliminationStep, if_neg (nextBallots_ne_nil htie)] at h
      exact absurd h (by simp)

theorem irvWinnerAux_some_winner :
    ∀ (n : Nat) (ballots : List (List Nat)), numCands ballots ≤ n →
      (∃ b ∈ ballots, b ≠ []) →
      ∃ c, irvWinnerAux (numCands ballots + 1) ballots = some (some c) := by
  intro n
  induction n with
  | zero =>
    intro ballots hn hex
    obtain ⟨b, hb, hbne⟩ := hex
    have hk := prefKeys_ne_nil_of_mem hb hbne
    rw [irvWinnerAux_succ]
    cases hrd : irvRound ballots with
    | inl r =>
      obtain ⟨c, rfl⟩ := irvRound_inl_isSome hk hrd
      exact ⟨c, rfl⟩
    | inr b' =>
      obtain ⟨rfl, htie⟩ := irvRound_inr_inv hrd
      have hlt := numCands_nextBallots_lt htie
      omega
  | succ n ih =>
    intro ballots hn hex
    obtain ⟨b, hb, hbne⟩ := hex
    have hk := prefKeys_ne_nil_of_mem hb hbne
    rw [irvWinnerAux_succ]
    cases hrd : irvRound ballots with
    | inl r =>
      obtain ⟨c, rfl⟩ := irvRound_inl_isSome hk hrd
      exact ⟨c, rfl⟩
    | inr b' =>
      obtain ⟨rfl, htie⟩ := irvRound_inr_inv hrd
      have hlt := numCands_nextBallots_lt htie
      obtain ⟨b1, hb1⟩ := List.exists_mem_of_ne_nil _ (nextBallots_ne_nil htie)
      obtain ⟨c, hc⟩ :=
        ih (nextBallots ballots) (by omega) ⟨b1, hb1, mem_nextBallots_ne_nil hb1⟩
      exact ⟨c, irvWinnerAux_mono _ _ _ _ hc (by omega)⟩

theorem irv_winner_eq_getD {ballots : List (List Nat)} (h : ballots ≠ []) :
    irv_winner ballots = (irvWinnerAux (numCands ballots + 1) ballots).getD none := by
  rw [irv_winner, if_neg h]

/-! ## Uniqueness of a majority candidate -/

theorem count_pair_le_length (l : List Nat) {a b : Nat} (hab : a ≠ b) :
    l.count a + l.count b ≤ l.length := by
  induction l with
  | nil => simp
  | cons x l ih =>
    rw [List.count_cons, List.count_cons, List.length_cons]
    by_cases h1 : (x == a) = true
    · have h2 : (x == b) = false := by
        rw [beq_eq_false_iff_ne]
        intro hxb
        exact hab ((beq_iff_eq.mp h1).symm.trans hxb)
      rw [if_pos h1, if_neg (by rw [h2]; exact Bool.false_ne_true)]
      omega
    · rw [if_neg h1]
      by_cases h2 : (x == b) = true
      · rw [if_pos h2]; omega
      · rw [if_neg h2]; omega

theorem countTop_pair_le (ballots : List (List Nat)) {a b : Nat} (hab : a ≠ b) :
    countTop ballots a + countTop ballots b ≤ ballots.length :=
  calc countTop ballots a + countTop ballots b
      ≤ (ballots.filterMap List.head?).length := count_pair_le_length _ hab
    _ ≤ ballots.length := List.length_filterMap_le _ _

theorem majority_unique {ballots : List (List Nat)} {a b : Nat}
    (ha : majorityC (countTop ballots a) ballots.length = true)
    (hb : majorityC (countTop ballots b) ballots.length = true) : a = b := by
  by_contra hab
  rw [majorityC, decide_eq_true_eq] at ha hb
  have := countTop_pair_le ballots hab
  omega

theorem findMajorityWinner_eq_some {ballots : List (List Nat)} {c : Nat}
    (hc : c ∈ prefKeys ballots)
    (hmaj : majorityB (countTop ballots c) ballots.length = true) :
    findMajorityWinner ballots = some c := by
  have hmajC : majorityC (countTop ballots c) ballots.length = true := by
    rw [← majorityB_eq_majorityC]; exact hmaj
  rw [findMajorityWinner_eq_C]
  cases hf : findMajorityWinnerC ballots with
  | none =>
    rw [findMajorityWinnerC, List.find?_eq_none] at hf
    exact absurd hmajC (hf c hc)
  | some w =>
    rw [findMajorityWinnerC] at hf
    have hw' := List.find?_some hf
    have hw : majorityC (countTop ballots w) ballots.length = true := hw'
    exact congrArg some (majority_unique hw hmajC)

theorem irvRound_all_tied {ballots : List (List Nat)}
    (hmaj : findMajorityWinner ballots = none)
    (htie : (toEliminate ballots).length = (prefKeys ballots).length) :
    irvRound ballots = Sum.inl (prefKeys ballots).head? := by
  rw [irvRound, hmaj]
  exact if_pos htie

theorem irvRound_majority {ballots : List (List Nat)} {w : Nat}
    (h : findMajorityWinner ballots = some w) :
    irvRound ballots = Sum.inl (some w) := by
  rw [irvRound, h]

theorem irv_winner_of_round_inl {ballots : List (List Nat)} {r : Option Nat}
    (hne : ballots ≠ []) (h : irvRound ballots = Sum.inl r) :
    irv_winner ballots = r := by
  rw [irv_winner_eq_getD hne, irvWinnerAux_succ, h]
  rfl

theorem ne_nil_of_mem_ballots {ballots : List (List Nat)} {b : List Nat}
    (hb : b ∈ ballots) : ballots ≠ [] := by
  intro h
  rw [h] at hb
  exact absurd hb (List.not_mem_nil b)

theorem ballots_ne_nil_of_mem_prefKeys {ballots : List (List Nat)} {c : Nat}
    (hc : c ∈ prefKeys ballots) : ballots ≠ [] := by
  intro h
  rw [h] at hc
  exact absurd hc (List.not_mem_nil c)

/-! ## The claims -/

/-- C1: for the ballots `[[A,B,C],[A,C,B],[B,A,C],[C,B,A],[C,A,B]]` (with
`A = 1`, `B = 2`, `C = 3`) the tally counts round-1 first preferences
`A:2, B:1, C:2`, finds no majority, eliminates exactly `B`, reduces the
ballots to `[[A,C],[A,C],[A,C],[C,A],[C,A]]`, counts `A:3, C:2` over a
total of `5` in round 2, and returns `A` as the winner. -/
theorem C1_scenario_five_ballots :
    countTop [[1,2,3],[1,3,2],[2,1,3],[3,2,1],[3,1,2]] 1 = 2 ∧
    countTop [[1,2,3],[1,3,2],[2,1,3],[3,2,1],[3,1,2]] 2 = 1 ∧
    countTop [[1,2,3],[1,3,2],[2,1,3],[3,2,1],[3,1,2]] 3 = 2 ∧
    findMajorityWinner [[1,2,3],[1,3,2],[2,1,3],[3,2,1],[3,1,2]] = none ∧
    toEliminate [[1,2,3],[1,3,2],[2,1,3],[3,2,1],[3,1,2]] = [2] ∧
    nextBallots [[1,2,3],[1,3,2],[2,1,3],[3,2,1],[3,1,2]] =
      [[1,3],[1,3],[1,3],[3,1],[3,1]] ∧
    countTop [[1,3],[1,3],[1,3],[3,1],[3,1]] 1 = 3 ∧
    countTop [[1,3],[1,3],[1,3],[3,1],[3,1]] 3 = 2 ∧
    ([[1,3],[1,3],[1,3],[3,1],[3,1]] : List (List Nat)).length = 5 ∧
    findMajorityWinner [[1,3],[1,3],[1,3],[3,1],[3,1]] = some 1 ∧
    irv_winner [[1,2,3],[1,3,2],[2,1,3],[3,2,1],[3,1,2]] = some 1 := by
  refine ⟨by decide, by decide, by decide, ?_, by decide, by decide, by decide,
    by decide, by decide, ?_, ?_⟩
  · rw [findMajorityWinner_eq_C]; decide
  · rw [findMajorityWinner_eq_C]; decide
  · rw [irv_winner_eq_C]; decide

/-- C2: the per-round majority check compares each counted candidate's
first-preference count against `total / 2` with real-valued division, and
the round returns a candidate exactly when its count strictly exceeds half
the total; `3` of `5` passes and `2` of `4` does not. -/
theorem C2_majority_real_division :
    (∀ count total : Nat,
        majorityB count total = true ↔ (total : ℚ) / 2 < (count : ℚ)) ∧
    (∀ (ballots : List (List Nat)) (c : Nat),
        findMajorityWinner ballots = some c →
          (ballots.length : ℚ) / 2 < (countTop ballots c : ℚ)) ∧
    (∀ ballots : List (List Nat),
        findMajorityWinner ballots = none →
          ∀ c ∈ prefKeys ballots,
            ¬ (ballots.length : ℚ) / 2 < (countTop ballots c : ℚ)) ∧
    majorityB 3 5 = true ∧ majorityB 2 4 = false := by
  have hchar : ∀ count total : Nat,
      majorityB count total = true ↔ (total : ℚ) / 2 < (count : ℚ) := by
    intro count total
    rw [majorityB, decide_eq_true_eq]
  refine ⟨hchar, ?_, ?_, ?_, ?_⟩
  · intro ballots c h
    rw [findMajorityWinner] at h
    have hp := List.find?_some h
    exact (hchar _ _).mp hp
  · intro ballots h c hc
    rw [findMajorityWinner, List.find?_eq_none] at h
    intro hlt
    exact h c hc ((hchar _ _).mpr hlt)
  · rw [majorityB_eq_majorityC]; decide
  · rw [majorityB_eq_majorityC]; decide

theorem C2_witness :
    (((5 : Nat) : ℚ) / 2 < ((3 : Nat) : ℚ)) ∧
    ((([[1],[1],[2]] : List (List Nat)).length : ℚ) / 2 <
      (countTop [[1],[1],[2]] 1 : ℚ)) :=
  ⟨(C2_majority_real_division.1 3 5).mp (by rw [majorityB_eq_majorityC]; decide),
   C2_majority_real_division.2.1 [[1],[1],[2]] 1
     (by rw [findMajorityWinner_eq_C]; decide)⟩

/-- C3: when every counted candidate is tied at the minimum (all-tied
termination), the tally returns one of the counted candidates rather than
`none`; in particular on `[[X],[Y]]` (here `X = 1`, `Y = 2`) it returns a
member of `{X, Y}`. -/
theorem C3_all_tied_returns_member :
    (∀ ballots : List (List Nat),
        findMajorityWinner ballots = none →
        prefKeys ballots ≠ [] →
        (toEliminate ballots).length = (prefKeys ballots).length →
          ∃ c ∈ prefKeys ballots, irv_winner ballots = some c) ∧
    irv_winner [[1],[2]] = some 1 ∧ (1 ∈ ([1, 2] : List Nat)) := by
  refine ⟨?_, by rw [irv_winner_eq_C]; decide, by decide⟩
  intro ballots hmaj hk htie
  cases hke : prefKeys ballots with
  | nil => exact absurd hke hk
  | cons k ks =>
    have hkm : k ∈ prefKeys ballots := by
      rw [hke]; exact List.mem_cons_self k ks
    have hne : ballots ≠ [] := ballots_ne_nil_of_mem_prefKeys hkm
    refine ⟨k, List.mem_cons_self k ks, ?_⟩
    have := irv_winner_of_round_inl hne (irvRound_all_tied hmaj htie)
    rw [this, hke]
    rfl

theorem C3_witness :
    ∃ c ∈ prefKeys [[1],[2]], irv_winner [[1],[2]] = some c :=
  C3_all_tied_returns_member.1 [[1],[2]]
    (by rw [findMajorityWinner_eq_C]; decide) (by decide) (by decide)

/-- C4: the loop terminates on every finite ballot list within
`numCands + 1` rounds, because every round that continues strictly reduces
the number of distinct candidates appearing on the ballots. -/
theorem C4_terminates :
    (∀ ballots : List (List Nat),
        ∃ r, irvWinnerAux (numCands ballots + 1) ballots = some r) ∧
    (∀ (ballots bs' : List (List Nat)),
        irvRound ballots = Sum.inr bs' → numCands bs' < numCands ballots) := by
  refine ⟨fun ballots => irvWinnerAux_numCands_terminates ballots, ?_⟩
  intro ballots bs' h
  obtain ⟨rfl, htie⟩ := irvRound_inr_inv h
  exact numCands_nextBallots_lt htie

theorem C4_witness :
    numCands [[1,3],[1,3],[1,3],[3,1],[3,1]] <
      numCands [[1,2,3],[1,3,2],[2,1,3],[3,2,1],[3,1,2]] :=
  C4_terminates.2 [[1,2,3],[1,3,2],[2,1,3],[3,2,1],[3,1,2]]
    [[1,3],[1,3],[1,3],[3,1],[3,1]] (by rw [irvRound_eq_C]; decide)

/-- C5 (counterexample): with ballots `[[1],[1],[2],[],[]]`, candidate `1`
is the first preference of `2` of the `3` non-empty ballots (strictly more
than half of them), yet round 1 uses `len(ballots) = 5` as the total, finds
no majority, and eliminates candidate `2` — so the round-1 total is not the
number of non-empty working ballots, and the majority shortcut over
non-empty ballots fails when empty ballots are present. -/
theorem C5_counterexample :
    countTop [[1],[1],[2],[],[]] 1 = 2 ∧
    (([[1],[1],[2],[],[]] : List (List Nat)).filter (fun b => !b.isEmpty)).length
      = 3 ∧
    (((3 : Nat) : ℚ) / 2 < ((2 : Nat) : ℚ)) ∧
    ([[1],[1],[2],[],[]] : List (List Nat)).length = 5 ∧
    findMajorityWinner [[1],[1],[2],[],[]] = none ∧
    toEliminate [[1],[1],[2],[],[]] = [2] ∧
    irvRound [[1],[1],[2],[],[]] = Sum.inr [[1],[1]] := by
  refine ⟨by decide, by decide, ?_, by decide, ?_, by decide, ?_⟩
  · push_cast
    norm_num
  · rw [findMajorityWinner_eq_C]; decide
  · rw [irvRound_eq_C]; decide

/-- C5 (amended): in every round the majority total is the number of ALL
working ballots of that round (in rounds after the first these are all
non-empty, the empty ones having been discarded at the end of the previous
round); a candidate whose round-1 count strictly exceeds half of ALL input
ballots — empty ballots included — is returned in round 1 without any
elimination. -/
theorem C5_amended_majority_shortcut :
    (∀ (ballots : List (List Nat)) (b : List Nat),
        b ∈ nextBallots ballots → b ≠ []) ∧
    (∀ (ballots : List (List Nat)) (c : Nat),
        c ∈ prefKeys ballots →
        (ballots.length : ℚ) / 2 < (countTop ballots c : ℚ) →
          findMajorityWinner ballots = some c ∧ irv_winner ballots = some c) := by
  refine ⟨fun ballots b hb => mem_nextBallots_ne_nil hb, ?_⟩
  intro ballots c hc hlt
  have hmaj : majorityB (countTop ballots c) ballots.length = true := by
    rw [majorityB, decide_eq_true_eq]
    exact hlt
  have hfind := findMajorityWinner_eq_some hc hmaj
  refine ⟨hfind, ?_⟩
  exact irv_winner_of_round_inl (ballots_ne_nil_of_mem_prefKeys hc)
    (irvRound_majority hfind)

theorem C5_witness :
    findMajorityWinner [[1],[1],[2]] = some 1 ∧
    irv_winner [[1],[1],[2]] = some 1 :=
  C5_amended_majority_shortcut.2 [[1],[1],[2]] 1 (by decide)
    (by
      show ((3 : Nat) : ℚ) / 2 < ((2 : Nat) : ℚ)
      push_cast
      norm_num)

/-- C6: when no candidate has a majority and not all counted candidates are
tied, the round eliminates simultaneously exactly the candidates whose count
equals the minimum count among candidates with at least one vote (zero-vote
candidates are not counted at all), filters them out of every ballot
preserving relative order, and discards ballots that became empty. -/
theorem C6_round_elimination :
    ∀ ballots : List (List Nat),
      (∀ c : Nat, c ∈ toEliminate ballots ↔
          c ∈ prefKeys ballots ∧ countTop ballots c = minVotes ballots) ∧
      (∀ c : Nat, c ∈ prefKeys ballots ↔ 0 < countTop ballots c) ∧
      (∀ c ∈ prefKeys ballots, minVotes ballots ≤ countTop ballots c) ∧
      (∀ b ∈ ballots,
          List.Sublist (b.filter (fun c => decide (c ∉ toEliminate ballots))) b) ∧
      (∀ (b : List Nat) (x : Nat),
          x ∈ b.filter (fun c => decide (c ∉ toEliminate ballots)) ↔
            x ∈ b ∧ x ∉ toEliminate ballots) ∧
      (∀ b : List Nat, b ∈ nextBallots ballots ↔
          b ≠ [] ∧ ∃ b0 ∈ ballots,
            b = b0.filter (fun c => decide (c ∉ toEliminate ballots))) ∧
      (findMajorityWinner ballots = none →
        (toEliminate ballots).length ≠ (prefKeys ballots).length →
          irvRound ballots = Sum.inr (nextBallots ballots)) := by
  intro ballots
  refine ⟨mem_toEliminate ballots, mem_prefKeys_iff_pos ballots,
    fun c hc => minVotes_le_countTop hc,
    fun b _ => List.filter_sublist b, ?_, mem_nextBallots ballots,
    fun hmaj htie => irvRound_eq_inr hmaj htie⟩
  intro b x
  rw [List.mem_filter]
  simp

theorem C6_witness :
    irvRound [[1,2,3],[1,3,2],[2,1,3],[3,2,1],[3,1,2]] =
      Sum.inr (nextBallots [[1,2,3],[1,3,2],[2,1,3],[3,2,1],[3,1,2]]) :=
  (C6_round_elimination [[1,2,3],[1,3,2],[2,1,3],[3,2,1],[3,1,2]]).2.2.2.2.2.2
    (by rw [findMajorityWinner_eq_C]; decide) (by decide)

/-- C7: on a zero-ballot input the winner computation returns `none` and the
first-preference tally returns an empty mapping, without error. -/
theorem C7_zero_ballots :
    irv_winner [] = none ∧ first_preference_counts [] = [] ∧
    calculate_irv_winner [] [] = none :=
  ⟨rfl, rfl, rfl⟩

/-- C8: the elimination branch of the loop returns `none` whenever the
working ballot set is empty after filtering out the eliminated candidates,
and that branch is exactly what the round runs when there is no majority and
not all counted candidates are tied. -/
theorem C8_exhaustion_returns_none :
    (∀ ballots : List (List Nat),
        nextBallots ballots = [] → eliminationStep ballots = Sum.inl none) ∧
    (∀ ballots : List (List Nat),
        findMajorityWinner ballots = none →
        (toEliminate ballots).length ≠ (prefKeys ballots).length →
          irvRound ballots = eliminationStep ballots) := by
  constructor
  · intro ballots h
    rw [eliminationStep, if_pos h]
  · intro ballots hmaj htie
    rw [irvRound, hmaj]
    exact if_neg htie

theorem C8_witness :
    eliminationStep [[1],[2]] = Sum.inl none ∧
    irvRound [[1,2,3],[1,3,2],[2,1,3],[3,2,1],[3,1,2]] =
      eliminationStep [[1,2,3],[1,3,2],[2,1,3],[3,2,1],[3,1,2]] :=
  ⟨C8_exhaustion_returns_none.1 [[1],[2]] (by decide),
   C8_exhaustion_returns_none.2 [[1,2,3],[1,3,2],[2,1,3],[3,2,1],[3,1,2]]
     (by rw [findMajorityWinner_eq_C]; decide) (by decide)⟩

/-- C9: every ballot list containing at least one non-empty ballot produces
a winning candidate, never `none`: whenever an elimination happens the
eliminated candidates are a strict subset of the counted ones, so some
ballot survives the filtering and the exhaustion branch never fires. -/
theorem C9_nonempty_gives_winner :
    (∀ ballots : List (List Nat),
        (toEliminate ballots).length ≠ (prefKeys ballots).length →
          nextBallots ballots ≠ []) ∧
    (∀ ballots : List (List Nat),
        (∃ b ∈ ballots, b ≠ []) → ∃ c, irv_winner ballots = some c) := by
  refine ⟨fun ballots h => nextBallots_ne_nil h, ?_⟩
  intro ballots hex
  obtain ⟨b, hb, hbne⟩ := hex
  have hne : ballots ≠ [] := ne_nil_of_mem_ballots hb
  obtain ⟨c, hc⟩ :=
    irvWinnerAux_some_winner (numCands ballots) ballots (le_refl _) ⟨b, hb, hbne⟩
  refine ⟨c, ?_⟩
  rw [irv_winner_eq_getD hne, hc]
  rfl

theorem C9_witness :
    (nextBallots [[1],[1],[2],[],[]] ≠ []) ∧
    ∃ c, irv_winner [[1],[2],[2],[3]] = some c :=
  ⟨C9_nonempty_gives_winner.1 [[1],[1],[2],[],[]] (by decide),
   C9_nonempty_gives_winner.2 [[1],[2],[2],[3]] ⟨[1], by decide, by decide⟩⟩

/-- C10: the winner depends only on the ballots, never on the candidate
registry queried for the election: the registry parameter is ignored by the
tally, and a ballot naming an identifier outside the registry is counted
like any other. -/
theorem C10_registry_independent :
    (∀ (ids ids' : List Nat) (ballots : List (List Nat)),
        calculate_irv_winner ids ballots = calculate_irv_winner ids' ballots) ∧
    calculate_irv_winner [1, 2] [[99],[99],[1]] = some 99 ∧
    calculate_irv_winner [] [[99],[99],[1]] = some 99 := by
  refine ⟨fun _ _ _ => rfl, ?_, ?_⟩
  · rw [calculate_irv_winner, irv_winner_eq_C]; decide
  · rw [calculate_irv_winner, irv_winner_eq_C]; decide

theorem C10_witness :
    calculate_irv_winner [5] [[1],[2],[1]] = calculate_irv_winner [7] [[1],[2],[1]] :=
  C10_registry_independent.1 [5] [7] [[1],[2],[1]]

end IRV
